import Mathlib

/-!
Verification of the release/version analysis core of the washhouse_ci
repository.

The TypeScript domain code (src/domain/models/Release.ts,
src/domain/models/Repository.ts, src/domain/services/ReleaseCalculator.ts)
is translated into executable Lean definitions:

* JavaScript Date values are represented by their integer millisecond
  timestamps (Date.prototype.getTime), and the current wall-clock instant is
  passed explicitly as a `now` parameter.
* JavaScript numbers that hold list lengths, parsed version components or
  star counts are represented by Nat / Int.  Arithmetic is exact: it agrees
  with the program on every integer below 2 ^ 53 (the exactly representable
  range of an IEEE double); the program rounds larger parsed components to
  the nearest double, which the model does not reproduce.  Rendering of an
  integer-valued number (template-literal interpolation) is modelled
  faithfully, including the switch to exponential notation at 10 ^ 21.
* Strings are Lean strings; regular-expression matching is translated into an
  explicit scanner with the same accept/reject boundary and capture groups.
* A TypeScript value of type `T | null` or an optional field becomes
  `Option T`; a throwing constructor becomes `Except String`.
-/

namespace Washhouse

/-- A character matched by the regex metacharacter `.` (no dotAll flag):
any character other than a JavaScript line terminator
(LF, CR, LINE SEPARATOR U+2028, PARAGRAPH SEPARATOR U+2029). -/
def isRegexDotChar (c : Char) : Bool :=
  !(c == '\n' || c == '\r' || c.toNat == 0x2028 || c.toNat == 0x2029)

/-- A character removed by String.prototype.trim: ECMAScript WhiteSpace
(TAB, VT, FF, SP, NBSP, ZWNBSP U+FEFF and the Unicode Space_Separator
category) together with the line terminators LF, CR, U+2028 and U+2029. -/
def isJsWhitespace (c : Char) : Bool :=
  c.toNat == 0x9 || c.toNat == 0xA || c.toNat == 0xB || c.toNat == 0xC ||
  c.toNat == 0xD || c.toNat == 0x20 || c.toNat == 0xA0 || c.toNat == 0x1680 ||
  (0x2000 ≤ c.toNat && c.toNat ≤ 0x200A) || c.toNat == 0x2028 ||
  c.toNat == 0x2029 || c.toNat == 0x202F || c.toNat == 0x205F ||
  c.toNat == 0x3000 || c.toNat == 0xFEFF

/-- Split a character list into its maximal leading run of ASCII digits
(the text matched by a greedy `\d+` or `\d*`) and the remainder. -/
def chompDigits : List Char → List Char × List Char
  | [] => ([], [])
  | c :: cs =>
    if c.isDigit then
      let p := chompDigits cs
      (c :: p.1, p.2)
    else ([], c :: cs)

/-- `parseInt(s, 10)` on a string of ASCII digits, kept as an exact natural
number.  Faithful to the program for values below 2 ^ 53; the program rounds
the denoted value of a longer digit string to the nearest IEEE double. -/
def digitsToNat (ds : List Char) : Nat :=
  ds.foldl (fun n c => 10 * n + (c.toNat - 48)) 0

/-- Positional decimal digits of a non-negative integer, most significant
first.  The `fuel` argument only bounds the recursion depth; it is set to
`n + 1` by `natDecimal`, which always suffices. -/
def natDecimalAux (fuel n : Nat) : List Char :=
  match fuel with
  | 0 => []
  | fuel + 1 =>
    if n < 10 then [Char.ofNat (48 + n)]
    else natDecimalAux fuel (n / 10) ++ [Char.ofNat (48 + n % 10)]

/-- Positional decimal rendering of a non-negative integer.  This is the
Number::toString output for integer values below 10 ^ 21 (for an exactly
representable integer the shortest digit string that rounds back to it is
its exact decimal expansion); values at and above 10 ^ 21 render in
exponential notation instead, see `expNotation`. -/
def natDecimal (n : Nat) : List Char :=
  natDecimalAux (n + 1) n

/-- Factor the powers of ten out of a positive integer: `stripZeros n` is
the pair (s, z) with `n = s * 10 ^ z` and s not divisible by 10. -/
def stripZerosAux (fuel n : Nat) : Nat × Nat :=
  match fuel with
  | 0 => (n, 0)
  | fuel + 1 =>
    if n % 10 = 0 ∧ n ≠ 0 then
      let p := stripZerosAux fuel (n / 10)
      (p.1, p.2 + 1)
    else (n, 0)

/-- Entry point of `stripZerosAux` with always-sufficient fuel. -/
def stripZeros (n : Nat) : Nat × Nat :=
  stripZerosAux (n + 1) n

/-- Number::toString exponential notation for an integer value m at or above
10 ^ 21: writing m = s * 10 ^ z with s not divisible by 10 and s having k
digits, the output is the digits of s (with a decimal point after the first
digit when k ≥ 2) followed by "e+" and the exponent z + k - 1. -/
def expNotation (n : Nat) : List Char :=
  let sz := stripZeros n
  let ds := natDecimal sz.1
  let e := sz.2 + ds.length - 1
  match ds with
  | [] => []
  | [d] => d :: 'e' :: '+' :: natDecimal e
  | d :: rest => d :: '.' :: (rest ++ 'e' :: '+' :: natDecimal e)

/-- Template-literal rendering of a JavaScript number holding a non-negative
integer value: positional decimal below 10 ^ 21, exponential notation at and
above (ECMAScript Number::toString). -/
def jsNatRepr (n : Nat) : List Char :=
  if n < 10 ^ 21 then natDecimal n else expNotation n

/-- `SemanticVersion` from Release.ts: major/minor/patch components plus an
optional pre-release suffix (`preRelease?: string`, `undefined` = `none`). -/
structure SemanticVersion where
  major : Nat
  minor : Nat
  patch : Nat
  preRelease : Option String
deriving DecidableEq, Repr

/-- The capture groups of `/^(\d+)\.(\d+)\.(\d+)(?:-(.+))?$/`:
major digits, minor digits, patch digits, optional pre-release text. -/
abbrev SemverGroups : Type := List Char × List Char × List Char × Option (List Char)

/-- Anchored match of `/^(\d+)\.(\d+)\.(\d+)(?:-(.+))?$/`, parameterised by
the character class accepted inside the final `(.+)` group (the source regex
uses `.`, i.e. `isRegexDotChar`).  Returns the capture groups on a match. -/
def scanGroups (suffixOk : Char → Bool) (cs : List Char) : Option SemverGroups :=
  if (chompDigits cs).1 = [] then none else
  match (chompDigits cs).2 with
  | [] => none
  | c1 :: r2 =>
    if c1 ≠ '.' then none else
    if (chompDigits r2).1 = [] then none else
    match (chompDigits r2).2 with
    | [] => none
    | c2 :: r4 =>
      if c2 ≠ '.' then none else
      if (chompDigits r4).1 = [] then none else
      match (chompDigits r4).2 with
      | [] => some ((chompDigits cs).1, (chompDigits r2).1, (chompDigits r4).1, none)
      | c3 :: rest =>
        if c3 ≠ '-' then none else
        if rest = [] then none
        else if rest.all suffixOk then
          some ((chompDigits cs).1, (chompDigits r2).1, (chompDigits r4).1, some rest)
        else none

/-- `version.replace(/^v/, '')`: remove a single leading lowercase letter v
if present. -/
def stripLeadingV : List Char → List Char
  | 'v' :: cs => cs
  | cs => cs

/-- Build the SemanticVersion from the capture groups:
`parseInt(match[i], 10)` on each numeric group, `match[4]` kept verbatim. -/
def groupsToVersion (g : SemverGroups) : SemanticVersion :=
  match g with
  | (maj, mino, pat, suf) =>
    ⟨digitsToNat maj, digitsToNat mino, digitsToNat pat, suf.map String.mk⟩

/-- `SemanticVersion.parse` from Release.ts: strip one leading `v`, run the
regex, return `null` (`none`) when it does not match. -/
def SemanticVersion.parse (s : String) : Option SemanticVersion :=
  (scanGroups isRegexDotChar (stripLeadingV s.data)).map groupsToVersion

/-- `isSemantic(): !this.preRelease` — true when preRelease is `undefined` or
the empty string (the empty string is falsy in JavaScript). -/
def SemanticVersion.isSemantic (v : SemanticVersion) : Bool :=
  match v.preRelease with
  | none => true
  | some s => s.data.isEmpty

/-- `toString()`: `` `${major}.${minor}.${patch}` `` with `-${preRelease}`
appended when `this.preRelease` is truthy (non-empty). -/
def SemanticVersion.toString (v : SemanticVersion) : String :=
  let base := String.mk (jsNatRepr v.major) ++ "." ++ String.mk (jsNatRepr v.minor)
      ++ "." ++ String.mk (jsNatRepr v.patch)
  match v.preRelease with
  | none => base
  | some p => if p.data.isEmpty then base else base ++ "-" ++ p

/-- `Release` from Release.ts: tag name, commit date (ms timestamp), and the
parsed version or `null`. -/
structure Release where
  tagName : String
  date : Int
  version : Option SemanticVersion
deriving DecidableEq, Repr

/-- `hasSemanticVersion(): this.version !== null && this.version.isSemantic()`. -/
def Release.hasSemanticVersion (r : Release) : Bool :=
  match r.version with
  | none => false
  | some v => v.isSemantic

/-- `getDaysSince()`: `Math.floor(Math.abs(now - date) / (1000*60*60*24))`.
On integer millisecond timestamps the floor of the non-negative quotient is
natural-number division of the absolute difference by 86400000. -/
def Release.getDaysSince (now : Int) (r : Release) : Int :=
  ((now - r.date).natAbs / 86400000 : Nat)

/-- `ReleaseStats` from Release.ts. -/
structure ReleaseStats where
  totalReleases : Nat
  semanticReleases : Nat
  latestRelease : Option Release
  latestSemanticRelease : Option Release
  daysSinceLatestRelease : Option Int
deriving DecidableEq, Repr

/-- `hasReleases(): this.totalReleases > 0`. -/
def ReleaseStats.hasReleases (st : ReleaseStats) : Bool :=
  decide (0 < st.totalReleases)

namespace ReleaseCalculator

/-- `filterSemanticVersions`: `releases.filter(r => r.hasSemanticVersion())`. -/
def filterSemanticVersions (releases : List Release) : List Release :=
  releases.filter (fun r => r.hasSemanticVersion)

/-- `calculateDaysSince(date)`: the same floor-of-absolute-difference formula
as `Release.getDaysSince`, on a bare date. -/
def calculateDaysSince (now : Int) (date : Int) : Int :=
  ((now - date).natAbs / 86400000 : Nat)

/-- `calculateStats` from ReleaseCalculator.ts: empty input gives the all-zero
all-null stats; otherwise counts, first element as latest, first semantic
element (if any) as latest semantic, and days since the first element. -/
def calculateStats (now : Int) (releases : List Release) : ReleaseStats :=
  match releases with
  | [] => ⟨0, 0, none, none, none⟩
  | latest :: _ =>
    let sems := filterSemanticVersions releases
    ⟨releases.length, sems.length, some latest,
      match sems with
      | [] => none
      | s :: _ => some s,
      some (calculateDaysSince now latest.date)⟩

/-- The raw tag input `{ name: string; date: Date }`. -/
structure RepositoryTag where
  name : String
  date : Int
deriving DecidableEq, Repr

/-- The Release built from one tag inside `parseTags`. -/
def releaseOfTag (t : RepositoryTag) : Release :=
  ⟨t.name, t.date, SemanticVersion.parse t.name⟩

/-- The sort comparator `(a, b) => b.date.getTime() - a.date.getTime()`:
`a` sorts no later than `b` exactly when `b.date ≤ a.date`. -/
def tagReleaseOrder (a b : Release) : Bool :=
  decide (b.date ≤ a.date)

/-- `parseTags`: map each tag to a Release, then sort by date descending.
`Array.prototype.sort` is a stable sort (ES2019), modelled by `mergeSort`. -/
def parseTags (tags : List RepositoryTag) : List Release :=
  (tags.map releaseOfTag).mergeSort tagReleaseOrder

end ReleaseCalculator

/-- `Repository` from Repository.ts (fields only; validation lives in
`mkRepository`). -/
structure Repository where
  name : String
  owner : String
  url : String
  description : Option String
  language : Option String
  starCount : Int
  updatedAt : Int
  releaseStats : Option ReleaseStats
deriving DecidableEq

/-- The Repository constructor with its three synchronous validation checks,
in source order.  `!name || name.trim() === ''` holds exactly when every
character of `name` lies in the set trim removes (an empty string passes
`List.all` vacuously), and likewise for `owner`; `url` is only checked for
emptiness (`!url`) and is not trimmed.  The trim set is `isJsWhitespace`,
the exact ECMAScript WhiteSpace/LineTerminator set. -/
def mkRepository (name owner url : String) (description language : Option String)
    (starCount : Int) (updatedAt : Int) (releaseStats : Option ReleaseStats) :
    Except String Repository :=
  if name.data.all isJsWhitespace || owner.data.all isJsWhitespace
      || url.data.isEmpty then
    .error "Repository name, owner, and url are required"
  else if !("http".data.isPrefixOf url.data) then
    .error "Invalid repository URL"
  else if starCount < 0 then
    .error "Star count cannot be negative"
  else
    .ok ⟨name, owner, url, description, language, starCount, updatedAt, releaseStats⟩

/-- The characters contributed to the matched string by the optional
pre-release group: nothing, or a hyphen followed by the suffix text. -/
def sufChars : Option (List Char) → List Char
  | none => []
  | some p => '-' :: p

/-- Modelled from the spec (§4.1): the acceptance shape worded there — an
optional leading lowercase `v`, then exactly three dot-separated components
of one or more ASCII digits, optionally followed by a hyphen and a suffix of
one or more characters each satisfying `suffixOk`.  The specification words
the suffix class as "non-whitespace" (`fun c => !c.isWhitespace`); the source
regex uses `.`, i.e. `isRegexDotChar`. -/
def SpecAccept (suffixOk : Char → Bool) (s : String) : Prop :=
  ∃ vp maj mino pat suf,
    s.data = vp ++ maj ++ '.' :: (mino ++ '.' :: (pat ++ sufChars suf)) ∧
    (vp = [] ∨ vp = ['v']) ∧
    maj ≠ [] ∧ maj.all Char.isDigit = true ∧
    mino ≠ [] ∧ mino.all Char.isDigit = true ∧
    pat ≠ [] ∧ pat.all Char.isDigit = true ∧
    (∀ p, suf = some p → p ≠ [] ∧ p.all suffixOk = true)

/-- Modelled from the spec (§4.5): "url does not begin with a recognized URI
scheme" — the recognized schemes for repository web URLs are http and
https, and in a URI the scheme is always followed by `://` here. -/
def beginsWithRecognizedScheme (url : String) : Bool :=
  "http://".data.isPrefixOf url.data || "https://".data.isPrefixOf url.data

/-- Modelled from the spec (§4.5): the claimed error condition for the
Repository constructor — name, owner, or url empty/missing, or url not
beginning with a recognized URI scheme, or negative star count.  (A missing
string cannot be represented in the typed model, so "empty/missing" is
emptiness.) -/
def claimedRepositoryError (name owner url : String) (starCount : Int) : Prop :=
  name = "" ∨ owner = "" ∨ url = "" ∨
    beginsWithRecognizedScheme url = false ∨ starCount < 0

/-! ## Helper lemmas -/

theorem chompDigits_eq (cs : List Char) :
    cs = (chompDigits cs).1 ++ (chompDigits cs).2 := by
  induction cs with
  | nil => rfl
  | cons c t ih =>
    by_cases h : c.isDigit
    · simp [chompDigits, h]
      exact ih
    · simp [chompDigits, h]

theorem chompDigits_all (cs : List Char) :
    (chompDigits cs).1.all Char.isDigit = true := by
  induction cs with
  | nil => rfl
  | cons c t ih =>
    by_cases h : c.isDigit
    · simp only [chompDigits, h, if_true, List.all_cons, Bool.and_eq_true]
      exact ⟨trivial, ih⟩
    · simp [chompDigits, h]

theorem chompDigits_head (cs : List Char) :
    ∀ c r, (chompDigits cs).2 = c :: r → c.isDigit = false := by
  induction cs with
  | nil => intro c r h; simp [chompDigits] at h
  | cons a t ih =>
    intro c r h
    by_cases ha : a.isDigit
    · exact ih c r (by simpa [chompDigits, ha] using h)
    · simp [chompDigits, ha] at h
      simp [← h.1, ha]

theorem chompDigits_append (d r : List Char) (hd : d.all Char.isDigit = true)
    (hr : ∀ c t, r = c :: t → c.isDigit = false) :
    chompDigits (d ++ r) = (d, r) := by
  induction d with
  | nil =>
    cases r with
    | nil => rfl
    | cons c t => simp [chompDigits, hr c t rfl]
  | cons a d ih =>
    simp only [List.all_cons, Bool.and_eq_true] at hd
    simp [chompDigits, hd.1, ih hd.2]

theorem digitsToNat_append_singleton (ds : List Char) (c : Char) :
    digitsToNat (ds ++ [c]) = 10 * digitsToNat ds + (c.toNat - 48) := by
  simp [digitsToNat, List.foldl_append]

theorem digitChar_spec (d : Nat) (hd : d < 10) :
    (Char.ofNat (48 + d)).isDigit = true ∧ (Char.ofNat (48 + d)).toNat = 48 + d := by
  interval_cases d <;> exact ⟨by decide, by decide⟩

theorem natDecimalAux_spec : ∀ fuel n : Nat, n < fuel →
    natDecimalAux fuel n ≠ [] ∧ (natDecimalAux fuel n).all Char.isDigit = true ∧
      digitsToNat (natDecimalAux fuel n) = n := by
  intro fuel
  induction fuel with
  | zero => intro n h; omega
  | succ fuel ih =>
    intro n h
    by_cases h10 : n < 10
    · simp only [natDecimalAux, if_pos h10]
      obtain ⟨hdig, hval⟩ := digitChar_spec n h10
      refine ⟨by simp, by simp [hdig], ?_⟩
      simp [digitsToNat, hval]
    · obtain ⟨hne, hall, hval⟩ := ih (n / 10) (by omega)
      simp only [natDecimalAux, if_neg h10]
      obtain ⟨hdig, hvc⟩ := digitChar_spec (n % 10) (Nat.mod_lt _ (by omega))
      refine ⟨by simp, ?_, ?_⟩
      · simp [List.all_append, hall, hdig]
      · rw [digitsToNat_append_singleton, hval, hvc]
        omega

theorem natDecimal_spec (n : Nat) :
    natDecimal n ≠ [] ∧ (natDecimal n).all Char.isDigit = true ∧
      digitsToNat (natDecimal n) = n :=
  natDecimalAux_spec (n + 1) n (Nat.lt_succ_self n)

theorem jsNatRepr_small (n : Nat) (h : n < 2 ^ 53) : jsNatRepr n = natDecimal n := by
  unfold jsNatRepr
  rw [if_pos (Nat.lt_of_lt_of_le h (by norm_num))]

theorem nonDigit_head (c0 : Char) (h : c0.isDigit = false) (X : List Char) :
    ∀ c t, c0 :: X = c :: t → c.isDigit = false := by
  intro c t hh
  injection hh with hh1 _
  rw [← hh1]
  exact h

theorem scanGroups_eq_some_iff (suffixOk : Char → Bool) (cs maj mino pat : List Char)
    (suf : Option (List Char)) :
    scanGroups suffixOk cs = some (maj, mino, pat, suf) ↔
      (cs = maj ++ '.' :: (mino ++ '.' :: (pat ++ sufChars suf)) ∧
       maj ≠ [] ∧ maj.all Char.isDigit = true ∧
       mino ≠ [] ∧ mino.all Char.isDigit = true ∧
       pat ≠ [] ∧ pat.all Char.isDigit = true ∧
       ∀ p, suf = some p → p ≠ [] ∧ p.all suffixOk = true) := by
  constructor
  · intro h
    unfold scanGroups at h
    split at h
    · exact Option.noConfusion h
    next h1 =>
    split at h
    · exact Option.noConfusion h
    next c1 r2 heq1 =>
    split at h
    · exact Option.noConfusion h
    next hc1 =>
    split at h
    · exact Option.noConfusion h
    next h2 =>
    split at h
    · exact Option.noConfusion h
    next c2 r4 heq2 =>
    split at h
    · exact Option.noConfusion h
    next hc2 =>
    split at h
    · exact Option.noConfusion h
    next h3 =>
    split at h
    next heq3 =>
      simp only [Option.some.injEq, Prod.mk.injEq] at h
      obtain ⟨e_maj, e_mino, e_pat, e_suf⟩ := h
      subst e_maj; subst e_mino; subst e_pat; subst e_suf
      rw [not_ne_iff] at hc1 hc2
      subst hc1; subst hc2
      refine ⟨?_, h1, chompDigits_all cs, h2, chompDigits_all r2, h3, chompDigits_all r4,
        fun p hp => Option.noConfusion hp⟩
      conv_lhs => rw [chompDigits_eq cs]
      rw [heq1]
      congr 1
      congr 1
      conv_lhs => rw [chompDigits_eq r2]
      rw [heq2]
      congr 1
      congr 1
      conv_lhs => rw [chompDigits_eq r4]
      rw [heq3]
      simp [sufChars]
    next c3 rest heq3 =>
      split at h
      · exact Option.noConfusion h
      next hc3 =>
      split at h
      · exact Option.noConfusion h
      next hrest =>
      split at h
      next hall =>
        simp only [Option.some.injEq, Prod.mk.injEq] at h
        obtain ⟨e_maj, e_mino, e_pat, e_suf⟩ := h
        subst e_maj; subst e_mino; subst e_pat; subst e_suf
        rw [not_ne_iff] at hc1 hc2 hc3
        subst hc1; subst hc2; subst hc3
        refine ⟨?_, h1, chompDigits_all cs, h2, chompDigits_all r2, h3, chompDigits_all r4,
          ?_⟩
        · conv_lhs => rw [chompDigits_eq cs]
          rw [heq1]
          congr 1
          congr 1
          conv_lhs => rw [chompDigits_eq r2]
          rw [heq2]
          congr 1
          congr 1
          conv_lhs => rw [chompDigits_eq r4]
          rw [heq3]
          simp [sufChars]
        · intro p hp
          injection hp with hp
          subst hp
          exact ⟨hrest, hall⟩
      · exact Option.noConfusion h
  · rintro ⟨hcs, h1, ha1, h2, ha2, h3, ha3, hsuf⟩
    have e2 : chompDigits (mino ++ '.' :: (pat ++ sufChars suf)) =
        (mino, '.' :: (pat ++ sufChars suf)) :=
      chompDigits_append _ _ ha2 (nonDigit_head '.' (by decide) _)
    have e1 : chompDigits (maj ++ '.' :: (mino ++ '.' :: (pat ++ sufChars suf))) =
        (maj, '.' :: (mino ++ '.' :: (pat ++ sufChars suf))) :=
      chompDigits_append _ _ ha1 (nonDigit_head '.' (by decide) _)
    have e3 : chompDigits (pat ++ sufChars suf) = (pat, sufChars suf) := by
      cases suf with
      | none =>
        simpa [sufChars] using
          chompDigits_append pat [] ha3 (fun c t hh => List.noConfusion hh)
      | some p =>
        exact chompDigits_append _ _ ha3 (nonDigit_head '-' (by decide) _)
    rw [hcs]
    cases suf with
    | none =>
      simp only [sufChars, List.append_nil] at e1 e2 e3
      simp [scanGroups, e1, e2, e3, h1, h2, h3, sufChars]
    | some p =>
      obtain ⟨hp1, hp2⟩ := hsuf p rfl
      simp only [sufChars] at e1 e2 e3
      simp [scanGroups, e1, e2, e3, h1, h2, h3, hp1, hp2, sufChars]

theorem stripLeadingV_cons_v (t : List Char) : stripLeadingV ('v' :: t) = t := rfl

theorem stripLeadingV_of_ne (cs : List Char) (h : cs.head? ≠ some 'v') :
    stripLeadingV cs = cs := by
  cases cs with
  | nil => rfl
  | cons c t =>
    have hc : c ≠ 'v' := by simpa using h
    unfold stripLeadingV
    split
    next heq =>
      injection heq with h1 _
      exact absurd h1 hc
    next => rfl

theorem head_not_v (maj rest : List Char) (hne : maj ≠ [])
    (hall : maj.all Char.isDigit = true) :
    (maj ++ rest).head? ≠ some 'v' := by
  cases maj with
  | nil => exact absurd rfl hne
  | cons a t =>
    simp only [List.cons_append, List.head?_cons]
    intro hh
    injection hh with hh
    subst hh
    simp only [List.all_cons, Bool.and_eq_true] at hall
    exact absurd hall.1 (by decide)

theorem specAccept_iff_scan (suffixOk : Char → Bool) (s : String) :
    SpecAccept suffixOk s ↔ (scanGroups suffixOk (stripLeadingV s.data)).isSome = true := by
  constructor
  · rintro ⟨vp, maj, mino, pat, suf, hdata, hvp, h1, ha1, h2, ha2, h3, ha3, hsuf⟩
    have hscan : scanGroups suffixOk (maj ++ '.' :: (mino ++ '.' :: (pat ++ sufChars suf)))
        = some (maj, mino, pat, suf) :=
      (scanGroups_eq_some_iff suffixOk _ maj mino pat suf).mpr
        ⟨rfl, h1, ha1, h2, ha2, h3, ha3, hsuf⟩
    rcases hvp with hvp | hvp
    · subst hvp
      simp only [List.nil_append] at hdata
      rw [hdata, stripLeadingV_of_ne _ (head_not_v _ _ h1 ha1), hscan]
      rfl
    · subst hvp
      have hdata2 : s.data = 'v' :: (maj ++ '.' :: (mino ++ '.' :: (pat ++ sufChars suf))) := by
        simpa using hdata
      rw [hdata2, stripLeadingV_cons_v, hscan]
      rfl
  · intro hs
    rw [Option.isSome_iff_exists] at hs
    obtain ⟨⟨maj, mino, pat, suf⟩, hg⟩ := hs
    rw [scanGroups_eq_some_iff] at hg
    obtain ⟨hdec, h1, ha1, h2, ha2, h3, ha3, hsuf⟩ := hg
    cases hT : s.data with
    | nil =>
      rw [hT] at hdec
      simp only [stripLeadingV] at hdec
      exact absurd (List.append_eq_nil.mp hdec.symm).1 h1
    | cons c t =>
      by_cases hc : c = 'v'
      · subst hc
        rw [hT, stripLeadingV_cons_v] at hdec
        refine ⟨['v'], maj, mino, pat, suf, ?_, Or.inr rfl, h1, ha1, h2, ha2, h3, ha3, hsuf⟩
        rw [hT, hdec]
        simp
      · have hne : (c :: t).head? ≠ some 'v' := by simpa using hc
        rw [hT, stripLeadingV_of_ne _ hne] at hdec
        refine ⟨[], maj, mino, pat, suf, ?_, Or.inl rfl, h1, ha1, h2, ha2, h3, ha3, hsuf⟩
        rw [hT, hdec]
        simp


/-- C6 (amended): every successfully parsed value whose three numeric
components lie below 2 ^ 53 — the range in which JavaScript numbers are
exact and an integer renders as its plain decimal digits — renders as
"major.minor.patch" optionally followed by "-preRelease", never with a
leading v, and re-parsing the rendered string returns a SemanticVersion
equal to the original parsed value.  At components of 10 ^ 21 and above the
rendering switches to exponential notation and the round trip fails, see
the counterexample. -/
theorem toString_roundTrip (s : String) (v : SemanticVersion)
    (h : SemanticVersion.parse s = some v)
    (hM : v.major < 2 ^ 53) (hN : v.minor < 2 ^ 53) (hP : v.patch < 2 ^ 53) :
    SemanticVersion.parse (v.toString) = some v ∧
    (v.toString).data.head? ≠ some 'v' ∧
    (v.toString).data = natDecimal v.major ++ '.' :: (natDecimal v.minor ++ '.' ::
      (natDecimal v.patch ++ (match v.preRelease with
        | none => []
        | some p => '-' :: p.data))) := by
  unfold SemanticVersion.parse at h
  rw [Option.map_eq_some'] at h
  obtain ⟨⟨maj, mino, pat, suf⟩, hg, hv⟩ := h
  rw [scanGroups_eq_some_iff] at hg
  obtain ⟨hdec, h1, ha1, h2, ha2, h3, ha3, hsuf⟩ := hg
  subst hv
  simp only [groupsToVersion] at hM hN hP
  obtain ⟨hM1, hM2, hM3⟩ := natDecimal_spec (digitsToNat maj)
  obtain ⟨hN1, hN2, hN3⟩ := natDecimal_spec (digitsToNat mino)
  obtain ⟨hP1, hP2, hP3⟩ := natDecimal_spec (digitsToNat pat)
  have hdata : (SemanticVersion.toString (groupsToVersion (maj, mino, pat, suf))).data =
      natDecimal (digitsToNat maj) ++ '.' :: (natDecimal (digitsToNat mino) ++ '.' ::
        (natDecimal (digitsToNat pat) ++ sufChars suf)) := by
    cases suf with
    | none =>
      simp [SemanticVersion.toString, groupsToVersion, sufChars,
        jsNatRepr_small _ hM, jsNatRepr_small _ hN, jsNatRepr_small _ hP]
    | some p0 =>
      have hp0 : p0 ≠ [] := (hsuf p0 rfl).1
      simp [SemanticVersion.toString, groupsToVersion, sufChars, hp0,
        jsNatRepr_small _ hM, jsNatRepr_small _ hN, jsNatRepr_small _ hP]
  have hscan : scanGroups isRegexDotChar
      (natDecimal (digitsToNat maj) ++ '.' :: (natDecimal (digitsToNat mino) ++ '.' ::
        (natDecimal (digitsToNat pat) ++ sufChars suf)))
      = some (natDecimal (digitsToNat maj), natDecimal (digitsToNat mino),
              natDecimal (digitsToNat pat), suf) :=
    (scanGroups_eq_some_iff isRegexDotChar _ _ _ _ _).mpr
      ⟨rfl, hM1, hM2, hN1, hN2, hP1, hP2, hsuf⟩
  refine ⟨?_, ?_, ?_⟩
  · unfold SemanticVersion.parse
    rw [hdata, stripLeadingV_of_ne _ (head_not_v _ _ hM1 hM2), hscan]
    simp [groupsToVersion, hM3, hN3, hP3]
  · rw [hdata]
    exact head_not_v _ _ hM1 hM2
  · rw [hdata]
    cases suf with
    | none => simp [groupsToVersion, sufChars]
    | some p0 => simp [groupsToVersion, sufChars]


/-- C1: calculateStats returns ReleaseStats(0, 0, absent, absent, absent) on an
empty sequence; otherwise totalReleases is the input length, semanticReleases
the length of filterSemanticVersions of the input, latestRelease the first
element (trusting caller order), latestSemanticRelease the first element of
the filtered sequence when non-empty and absent otherwise, and
daysSinceLatestRelease the days-since of the first element's date. -/
theorem calculateStats_spec (now : Int) (rs : List Release) :
    (rs = [] → ReleaseCalculator.calculateStats now rs = ⟨0, 0, none, none, none⟩) ∧
    (∀ r, rs.head? = some r →
      ReleaseCalculator.calculateStats now rs =
        ⟨rs.length, (ReleaseCalculator.filterSemanticVersions rs).length, some r,
         (ReleaseCalculator.filterSemanticVersions rs).head?,
         some (ReleaseCalculator.calculateDaysSince now r.date)⟩) := by
  constructor
  · rintro rfl
    rfl
  · intro r hr
    cases rs with
    | nil => cases hr
    | cons a tl =>
      simp only [List.head?_cons, Option.some.injEq] at hr
      subst hr
      simp only [ReleaseCalculator.calculateStats]
      cases hsem : ReleaseCalculator.filterSemanticVersions (a :: tl) <;> simp [hsem]

/-- Witness for C1 at a concrete one-element release list one day old. -/
theorem calculateStats_spec_witness :
    ReleaseCalculator.calculateStats 86400000 [⟨"v1.0.0", 0, some ⟨1, 0, 0, none⟩⟩] =
      ⟨1, 1, some ⟨"v1.0.0", 0, some ⟨1, 0, 0, none⟩⟩,
        some ⟨"v1.0.0", 0, some ⟨1, 0, 0, none⟩⟩, some 1⟩ := by
  have h := (calculateStats_spec 86400000 [⟨"v1.0.0", 0, some ⟨1, 0, 0, none⟩⟩]).2
      ⟨"v1.0.0", 0, some ⟨1, 0, 0, none⟩⟩ rfl
  rw [h]
  decide

/-- C5: stats from calculateStats are mutually consistent — semanticReleases
is at most totalReleases (both counts are Nat, hence non-negative),
daysSinceLatestRelease is non-negative when present, and a zero
totalReleases forces all three optional fields absent. -/
theorem releaseStats_invariants (now : Int) (rs : List Release) :
    (ReleaseCalculator.calculateStats now rs).semanticReleases ≤
      (ReleaseCalculator.calculateStats now rs).totalReleases ∧
    (∀ d, (ReleaseCalculator.calculateStats now rs).daysSinceLatestRelease = some d →
      0 ≤ d) ∧
    ((ReleaseCalculator.calculateStats now rs).totalReleases = 0 →
      (ReleaseCalculator.calculateStats now rs).latestRelease = none ∧
      (ReleaseCalculator.calculateStats now rs).latestSemanticRelease = none ∧
      (ReleaseCalculator.calculateStats now rs).daysSinceLatestRelease = none) := by
  cases rs with
  | nil => exact ⟨Nat.le_refl 0, fun d hd => Option.noConfusion hd, fun _ => ⟨rfl, rfl, rfl⟩⟩
  | cons a tl =>
    refine ⟨?_, ?_, ?_⟩
    · simp only [ReleaseCalculator.calculateStats, ReleaseCalculator.filterSemanticVersions]
      exact List.length_filter_le _ _
    · intro d hd
      simp only [ReleaseCalculator.calculateStats, Option.some.injEq] at hd
      rw [← hd]
      exact Int.natCast_nonneg _
    · intro h0
      simp [ReleaseCalculator.calculateStats] at h0

/-- Witness for C5 at the empty release list. -/
theorem releaseStats_invariants_witness :
    (ReleaseCalculator.calculateStats 0 []).totalReleases = 0 ∧
    (ReleaseCalculator.calculateStats 0 []).latestRelease = none ∧
    (ReleaseCalculator.calculateStats 0 []).latestSemanticRelease = none ∧
    (ReleaseCalculator.calculateStats 0 []).daysSinceLatestRelease = none :=
  ⟨rfl, (releaseStats_invariants 0 []).2.2 rfl⟩

/-- C8: filterSemanticVersions returns exactly the releases whose
hasSemanticVersion() is true, as a subsequence of the input (order
preserved, never reordered); pre-release and unparseable-tag releases are
dropped. -/
theorem filterSemanticVersions_spec (rs : List Release) :
    (ReleaseCalculator.filterSemanticVersions rs).Sublist rs ∧
    (∀ r, r ∈ ReleaseCalculator.filterSemanticVersions rs ↔
      r ∈ rs ∧ r.hasSemanticVersion = true) ∧
    (∀ r, r ∈ rs →
      (r.version = none ∨ ∃ p v, r.version = some v ∧ v.preRelease = some p ∧ p ≠ "") →
      r ∉ ReleaseCalculator.filterSemanticVersions rs) := by
  refine ⟨List.filter_sublist rs, fun r => List.mem_filter, ?_⟩
  intro r hmem hcond hin
  rw [ReleaseCalculator.filterSemanticVersions, List.mem_filter] at hin
  have hsem := hin.2
  rcases hcond with h0 | ⟨p, v, hv, hp, hpne⟩
  · simp [Release.hasSemanticVersion, h0] at hsem
  · simp only [Release.hasSemanticVersion, hv, SemanticVersion.isSemantic, hp] at hsem
    exact hpne (String.ext (List.isEmpty_iff.mp hsem))

/-- Witness for C8: a pre-release tagged release is dropped. -/
theorem filterSemanticVersions_spec_witness :
    (⟨"v1.0.0-rc", 0, some ⟨1, 0, 0, some "rc"⟩⟩ : Release) ∉
      ReleaseCalculator.filterSemanticVersions
        [⟨"v1.0.0-rc", 0, some ⟨1, 0, 0, some "rc"⟩⟩] :=
  (filterSemanticVersions_spec [⟨"v1.0.0-rc", 0, some ⟨1, 0, 0, some "rc"⟩⟩]).2.2
    ⟨"v1.0.0-rc", 0, some ⟨1, 0, 0, some "rc"⟩⟩ (List.mem_singleton.mpr rfl)
    (Or.inr ⟨"rc", ⟨1, 0, 0, some "rc"⟩, rfl, rfl, by decide⟩)

/-- C9: ReleaseCalculator.calculateDaysSince(date) agrees with
Release.daysSince() on a Release carrying the same date at the same instant;
the value is non-negative for every date, future dates included, and is zero
when the date is the current instant.  (Both sides recompute the same
floor-of-absolute-difference formula; nothing is memoized in the pure
model.) -/
theorem daysSince_equiv (now date : Int) :
    (∀ r : Release, r.date = date →
      r.getDaysSince now = ReleaseCalculator.calculateDaysSince now date) ∧
    0 ≤ ReleaseCalculator.calculateDaysSince now date ∧
    (date = now → ReleaseCalculator.calculateDaysSince now date = 0) := by
  refine ⟨?_, ?_, ?_⟩
  · intro r hr
    simp [Release.getDaysSince, ReleaseCalculator.calculateDaysSince, hr]
  · exact Int.natCast_nonneg _
  · intro h
    subst h
    simp [ReleaseCalculator.calculateDaysSince]

/-- Witness for C9 at the concrete instant 5 ms. -/
theorem daysSince_equiv_witness :
    (⟨"t", 5, none⟩ : Release).getDaysSince 5 =
      ReleaseCalculator.calculateDaysSince 5 5 ∧
    ReleaseCalculator.calculateDaysSince 5 5 = 0 :=
  ⟨(daysSince_equiv 5 5).1 ⟨"t", 5, none⟩ rfl, (daysSince_equiv 5 5).2.2 rfl⟩

/-- C4: parseTags yields one Release per input pair (a permutation of the
mapped input, with tagName and date copied and version the parse result),
sorted by date descending; pairs with equal dates keep their relative input
order. -/
theorem parseTags_spec (tags : List ReleaseCalculator.RepositoryTag) :
    (ReleaseCalculator.parseTags tags).Perm
      (tags.map ReleaseCalculator.releaseOfTag) ∧
    (ReleaseCalculator.parseTags tags).Pairwise (fun a b => b.date ≤ a.date) ∧
    (∀ a b : Release, a.date = b.date →
      [a, b].Sublist (tags.map ReleaseCalculator.releaseOfTag) →
      [a, b].Sublist (ReleaseCalculator.parseTags tags)) := by
  have htrans : ∀ x y z : Release, ReleaseCalculator.tagReleaseOrder x y →
      ReleaseCalculator.tagReleaseOrder y z → ReleaseCalculator.tagReleaseOrder x z := by
    intro x y z hxy hyz
    simp only [ReleaseCalculator.tagReleaseOrder, decide_eq_true_eq] at *
    omega
  have htotal : ∀ x y : Release,
      ReleaseCalculator.tagReleaseOrder x y || ReleaseCalculator.tagReleaseOrder y x := by
    intro x y
    simp only [ReleaseCalculator.tagReleaseOrder, Bool.or_eq_true, decide_eq_true_eq]
    omega
  refine ⟨List.mergeSort_perm _ _, ?_, ?_⟩
  · have hs := List.sorted_mergeSort htrans htotal (tags.map ReleaseCalculator.releaseOfTag)
    exact List.Pairwise.imp (fun hab => by
      simpa [ReleaseCalculator.tagReleaseOrder, decide_eq_true_eq] using hab) hs
  · intro a b hab hsub
    exact List.pair_sublist_mergeSort htrans htotal
      (by simp [ReleaseCalculator.tagReleaseOrder, hab]) hsub

/-- Witness for C4: two equal-date tags come out in input order. -/
theorem parseTags_spec_witness :
    [ReleaseCalculator.releaseOfTag ⟨"a", 5⟩, ReleaseCalculator.releaseOfTag ⟨"b", 5⟩].Sublist
      (ReleaseCalculator.parseTags [⟨"a", 5⟩, ⟨"b", 5⟩]) :=
  (parseTags_spec [⟨"a", 5⟩, ⟨"b", 5⟩]).2.2 _ _ rfl (List.Sublist.refl _)


/-- C2 (amended): SemanticVersion.parse succeeds exactly on strings made of
an optional leading lowercase v (uppercase V rejected), three dot-separated
components of one or more ASCII digits, optionally followed by a hyphen and
a suffix of one or more characters none of which is a line terminator
(the source regex `.`); the suffix is captured verbatim.  The claim said
"non-whitespace" instead: the regex also accepts spaces and tabs there.
Parsing never raises; failure is the none sentinel, as on "1.2", "v1" and
"abc.def.ghi". -/
theorem parse_accept_characterization :
    (∀ s : String, (SemanticVersion.parse s).isSome = true ↔ SpecAccept isRegexDotChar s) ∧
    SemanticVersion.parse "1.2" = none ∧
    SemanticVersion.parse "v1" = none ∧
    SemanticVersion.parse "abc.def.ghi" = none ∧
    SemanticVersion.parse "V1.2.3" = none := by
  refine ⟨?_, rfl, rfl, rfl, rfl⟩
  intro s
  rw [specAccept_iff_scan]
  unfold SemanticVersion.parse
  cases scanGroups isRegexDotChar (stripLeadingV s.data) <;> simp

/-- C2 counterexample: "1.2.3-a b" parses successfully although its
pre-release suffix contains a whitespace character, refuting the claimed
"exactly ... non-whitespace characters" acceptance condition. -/
theorem parse_accept_counterexample :
    SemanticVersion.parse "1.2.3-a b" = some ⟨1, 2, 3, some "a b"⟩ ∧
    ¬ SpecAccept (fun c => !c.isWhitespace) "1.2.3-a b" := by
  refine ⟨rfl, ?_⟩
  rw [specAccept_iff_scan]
  decide

/-- Witness for C2 (amended) at the concrete accepted tag "v9.8.7". -/
theorem parse_accept_characterization_witness :
    SpecAccept isRegexDotChar "v9.8.7" :=
  (parse_accept_characterization.1 "v9.8.7").mp (by decide)

/-- C3 counterexample: a Release holding SemanticVersion(1,2,3, preRelease
= "") has hasSemanticVersion() = true although its preRelease is present
(not absent), because the empty string is falsy in JavaScript — refuting
the claimed "true iff version present and preRelease absent". -/
theorem hasSemanticVersion_counterexample :
    (Release.mk "t" 0 (some ⟨1, 2, 3, some ""⟩)).hasSemanticVersion = true ∧
    ¬ ∃ v, (Release.mk "t" 0 (some ⟨1, 2, 3, some ""⟩)).version = some v ∧
        v.preRelease = none := by
  refine ⟨rfl, ?_⟩
  rintro ⟨v, hv, hpre⟩
  injection hv with hv
  rw [← hv] at hpre
  exact Option.noConfusion hpre

/-- C3 (amended): a pre-release tag such as "v1.2.3-beta" parses to its
structured components, yet hasSemanticVersion() on a Release built from any
parse result with a pre-release is false; such a release still counts in
totalReleases but is excluded from filterSemanticVersions (hence the
semanticReleases count) and from latestSemanticRelease; and
hasSemanticVersion() is true iff the version is present and its preRelease
is absent or empty. -/
theorem hasSemanticVersion_amended :
    SemanticVersion.parse "v1.2.3-beta" = some ⟨1, 2, 3, some "beta"⟩ ∧
    (∀ s v, SemanticVersion.parse s = some v → (∃ p, v.preRelease = some p) →
      ∀ name d, (Release.mk name d (some v)).hasSemanticVersion = false) ∧
    (∀ now rs r, r ∈ rs → r.hasSemanticVersion = false →
      (ReleaseCalculator.calculateStats now rs).totalReleases = rs.length ∧
      r ∉ ReleaseCalculator.filterSemanticVersions rs ∧
      (ReleaseCalculator.calculateStats now rs).latestSemanticRelease ≠ some r) ∧
    (∀ r : Release, r.hasSemanticVersion = true ↔
      ∃ v, r.version = some v ∧ (v.preRelease = none ∨ v.preRelease = some "")) := by
  refine ⟨rfl, ?_, ?_, ?_⟩
  · intro s v hparse hex
    intro name d
    unfold SemanticVersion.parse at hparse
    rw [Option.map_eq_some'] at hparse
    obtain ⟨⟨maj, mino, pat, suf⟩, hg, hv⟩ := hparse
    rw [scanGroups_eq_some_iff] at hg
    obtain ⟨hdec, h1, ha1, h2, ha2, h3, ha3, hsuf⟩ := hg
    obtain ⟨p, hp⟩ := hex
    subst hv
    simp only [groupsToVersion, Option.map_eq_some'] at hp
    obtain ⟨p0, hp0, hps⟩ := hp
    subst hp0
    have hne : p0 ≠ [] := (hsuf p0 rfl).1
    simp [Release.hasSemanticVersion, SemanticVersion.isSemantic, groupsToVersion,
      List.isEmpty_iff, hne]
  · intro now rs r hmem hfalse
    refine ⟨?_, ?_, ?_⟩
    · cases rs <;> rfl
    · intro hin
      rw [ReleaseCalculator.filterSemanticVersions, List.mem_filter] at hin
      simp [hfalse] at hin
    · intro heq
      cases rs with
      | nil => exact Option.noConfusion heq
      | cons a tl =>
        simp only [ReleaseCalculator.calculateStats] at heq
        cases hsem : ReleaseCalculator.filterSemanticVersions (a :: tl) with
        | nil => rw [hsem] at heq; exact Option.noConfusion heq
        | cons s stl =>
          rw [hsem] at heq
          injection heq with heq
          have hsmem : r ∈ ReleaseCalculator.filterSemanticVersions (a :: tl) := by
            rw [hsem, ← heq]
            exact List.mem_cons_self s stl
          rw [ReleaseCalculator.filterSemanticVersions, List.mem_filter] at hsmem
          simp [hfalse] at hsmem
  · intro r
    constructor
    · intro ht
      cases hv : r.version with
      | none => simp [Release.hasSemanticVersion, hv] at ht
      | some v =>
        refine ⟨v, rfl, ?_⟩
        cases hp : v.preRelease with
        | none => exact Or.inl rfl
        | some p =>
          refine Or.inr ?_
          simp only [Release.hasSemanticVersion, hv, SemanticVersion.isSemantic, hp] at ht
          have hpe : p = "" := String.ext (List.isEmpty_iff.mp ht)
          rw [hpe]
    · rintro ⟨v, hv, hpre⟩
      rcases hpre with hpre | hpre <;>
        simp [Release.hasSemanticVersion, hv, SemanticVersion.isSemantic, hpre]


/-- Witness for C3 (amended) at the concrete tag "v1.2.3-beta". -/
theorem hasSemanticVersion_amended_witness :
    (Release.mk "v1.2.3-beta" 0 (some ⟨1, 2, 3, some "beta"⟩)).hasSemanticVersion = false :=
  hasSemanticVersion_amended.2.1 "v1.2.3-beta" ⟨1, 2, 3, some "beta"⟩ rfl
    ⟨"beta", rfl⟩ "v1.2.3-beta" 0

/-- Witness for C6 (amended) at the concrete tag "v1.2.3-beta". -/
theorem toString_roundTrip_witness :
    SemanticVersion.parse ((⟨1, 2, 3, some "beta"⟩ : SemanticVersion).toString) =
      some ⟨1, 2, 3, some "beta"⟩ :=
  (toString_roundTrip "v1.2.3-beta" ⟨1, 2, 3, some "beta"⟩ rfl
    (by decide) (by decide) (by decide)).1

/-- C6 counterexample: the tag "1000000000000000000000.0.0" parses (its major
component 10 ^ 21 is an exactly representable JavaScript number), but the
value renders in exponential notation as "1e+21.0.0", which does not
re-parse — the unrestricted round trip is false of the program. -/
theorem toString_roundTrip_counterexample :
    SemanticVersion.parse "1000000000000000000000.0.0" =
      some ⟨10 ^ 21, 0, 0, none⟩ ∧
    (⟨10 ^ 21, 0, 0, none⟩ : SemanticVersion).toString = "1e+21.0.0" ∧
    SemanticVersion.parse ((⟨10 ^ 21, 0, 0, none⟩ : SemanticVersion).toString) =
      none := by
  refine ⟨by decide, by decide, by decide⟩

theorem isPrefixOf_take (pre l : List Char) :
    pre.isPrefixOf l = true ↔ l.take pre.length = pre := by
  induction pre generalizing l with
  | nil => simp [List.isPrefixOf]
  | cons a t ih =>
    cases l with
    | nil => simp [List.isPrefixOf]
    | cons b u =>
      simp only [List.isPrefixOf, Bool.and_eq_true, beq_iff_eq, List.length_cons,
        List.take_succ_cons, List.cons.injEq, ih]
      tauto

/-- C7 counterexample: the constructor throws on the whitespace-only name
" " (with valid owner, url and star count) although the claimed condition —
name/owner/url empty or missing, url without a recognized URI scheme, or
negative stars — does not hold there; and it accepts url "httpgarbage",
which begins with no recognized URI scheme, so the claimed iff fails in both
directions. -/
theorem repository_validation_counterexample :
    (mkRepository " " "o" "http://x" none none 0 0 none =
      Except.error "Repository name, owner, and url are required") ∧
    ¬ claimedRepositoryError " " "o" "http://x" 0 ∧
    (mkRepository "n" "o" "httpgarbage" none none 0 0 none =
      Except.ok ⟨"n", "o", "httpgarbage", none, none, 0, 0, none⟩) ∧
    claimedRepositoryError "n" "o" "httpgarbage" 0 := by
  refine ⟨rfl, ?_, rfl, ?_⟩
  · intro h
    rcases h with h | h | h | h | h
    · exact absurd h (by decide)
    · exact absurd h (by decide)
    · exact absurd h (by decide)
    · exact absurd h (by decide)
    · exact absurd h (by decide)
  · refine Or.inr (Or.inr (Or.inr (Or.inl ?_)))
    decide

/-- C7 (amended): Repository construction signals a validation error
synchronously iff name or owner is empty or whitespace-only, or url is
empty, or url does not start with the four characters "http", or starCount
is negative; a blank (in particular empty) name yields the message naming
name, owner and url as required, a negative star count with otherwise valid
fields yields the star-count message, and valid arguments produce a value
carrying exactly the given fields (immutability is inherent in the pure
model). -/
theorem repository_validation_amended (name owner url : String)
    (desc lang : Option String) (star upd : Int) (stats : Option ReleaseStats) :
    ((∃ e, mkRepository name owner url desc lang star upd stats = Except.error e) ↔
      (name.data.all isJsWhitespace = true ∨ owner.data.all isJsWhitespace = true ∨
       url = "" ∨ "http".data.isPrefixOf url.data = false ∨ star < 0)) ∧
    (name = "" →
      mkRepository name owner url desc lang star upd stats =
        Except.error "Repository name, owner, and url are required") ∧
    (name.data.all isJsWhitespace = false → owner.data.all isJsWhitespace = false →
      "http".data.isPrefixOf url.data = true → star < 0 →
      mkRepository name owner url desc lang star upd stats =
        Except.error "Star count cannot be negative") ∧
    (name.data.all isJsWhitespace = false → owner.data.all isJsWhitespace = false →
      "http".data.isPrefixOf url.data = true → 0 ≤ star →
      mkRepository name owner url desc lang star upd stats =
        Except.ok ⟨name, owner, url, desc, lang, star, upd, stats⟩) := by
  have hempty : ∀ u : String, "http".data.isPrefixOf u.data = true → u.data.isEmpty = false := by
    intro u hu
    cases hd : u.data with
    | nil => rw [hd] at hu; simp [List.isPrefixOf] at hu
    | cons c t => rfl
  have hok : name.data.all isJsWhitespace = false →
      owner.data.all isJsWhitespace = false →
      "http".data.isPrefixOf url.data = true → 0 ≤ star →
      mkRepository name owner url desc lang star upd stats =
        Except.ok ⟨name, owner, url, desc, lang, star, upd, stats⟩ := by
    intro hA hB hD hE
    simp [mkRepository, hA, hB, hempty url hD, hD, Int.not_lt.mpr hE]
  refine ⟨⟨?_, ?_⟩, ?_, ?_, hok⟩
  · rintro ⟨e, he⟩
    by_contra hR
    push_neg at hR
    obtain ⟨hA, hB, hC, hD, hE⟩ := hR
    simp only [Bool.not_eq_true] at hA hB
    simp only [Bool.not_eq_false] at hD
    rw [hok hA hB hD hE] at he
    exact Except.noConfusion he
  · rintro (hA | hB | hC | hD | hE)
    · exact ⟨"Repository name, owner, and url are required", by simp [mkRepository, hA]⟩
    · exact ⟨"Repository name, owner, and url are required", by simp [mkRepository, hB]⟩
    · subst hC
      exact ⟨"Repository name, owner, and url are required", by simp [mkRepository]⟩
    · by_cases h1 : (name.data.all isJsWhitespace || owner.data.all isJsWhitespace
          || url.data.isEmpty : Bool)
      · exact ⟨"Repository name, owner, and url are required", by simp [mkRepository, h1]⟩
      · exact ⟨"Invalid repository URL", by simp [mkRepository, h1, hD]⟩
    · by_cases h1 : (name.data.all isJsWhitespace || owner.data.all isJsWhitespace
          || url.data.isEmpty : Bool)
      · exact ⟨"Repository name, owner, and url are required", by simp [mkRepository, h1]⟩
      · by_cases h2 : "http".data.isPrefixOf url.data
        · exact ⟨"Star count cannot be negative", by simp [mkRepository, h1, h2, hE]⟩
        · exact ⟨"Invalid repository URL", by
            simp only [Bool.not_eq_true] at h2
            simp [mkRepository, h1, h2]⟩
  · intro hname
    subst hname
    simp [mkRepository]
  · intro hA hB hD hE
    simp [mkRepository, hA, hB, hempty url hD, hD, hE]

/-- Witness for C7 (amended): a fully valid construction succeeds. -/
theorem repository_validation_amended_witness :
    mkRepository "washhouse" "fracassi-marco" "https://github.com/x" none none 7 0 none =
      Except.ok ⟨"washhouse", "fracassi-marco", "https://github.com/x", none, none, 7, 0, none⟩ :=
  (repository_validation_amended "washhouse" "fracassi-marco" "https://github.com/x"
      none none 7 0 none).2.2.2 (by decide) (by decide) (by decide) (by decide)

/-- C10: with valid name, owner and star count, construction succeeds iff
the first four characters of url are "http" — "httpgarbage" and "httpsx"
pass while "ftp://host" and "git://host" fail with "Invalid repository URL"
— and url is not trimmed first, so a url with leading whitespace before
"http" is rejected (its first four characters are not "http"). -/
theorem repository_urlCheck (name owner url : String) (desc lang : Option String)
    (star upd : Int) (stats : Option ReleaseStats)
    (hA : name.data.all isJsWhitespace = false)
    (hB : owner.data.all isJsWhitespace = false)
    (hs : 0 ≤ star) :
    ((∃ repo, mkRepository name owner url desc lang star upd stats = Except.ok repo) ↔
      url.data.take 4 = "http".data) ∧
    (url ≠ "" → url.data.take 4 ≠ "http".data →
      mkRepository name owner url desc lang star upd stats =
        Except.error "Invalid repository URL") := by
  have hlen : ("http".data).length = 4 := rfl
  constructor
  · constructor
    · rintro ⟨repo, hrepo⟩
      by_contra htake
      have hpre : "http".data.isPrefixOf url.data = false := by
        rw [← Bool.not_eq_true, isPrefixOf_take, hlen]
        exact fun hh => htake hh
      by_cases h1 : (name.data.all isJsWhitespace || owner.data.all isJsWhitespace
          || url.data.isEmpty : Bool)
      · rw [show mkRepository name owner url desc lang star upd stats =
            Except.error "Repository name, owner, and url are required" from
            by simp [mkRepository, h1]] at hrepo
        exact Except.noConfusion hrepo
      · rw [show mkRepository name owner url desc lang star upd stats =
            Except.error "Invalid repository URL" from
            by simp [mkRepository, h1, hpre]] at hrepo
        exact Except.noConfusion hrepo
    · intro htake
      have hpre : "http".data.isPrefixOf url.data = true := by
        rw [isPrefixOf_take, hlen]
        exact htake
      have hempty : url.data.isEmpty = false := by
        cases hd : url.data with
        | nil => rw [hd] at htake; exact absurd htake (by decide)
        | cons c t => rfl
      exact ⟨⟨name, owner, url, desc, lang, star, upd, stats⟩,
        by simp [mkRepository, hA, hB, hempty, hpre, Int.not_lt.mpr hs]⟩
  · intro hne htake
    have hpre : "http".data.isPrefixOf url.data = false := by
      rw [← Bool.not_eq_true, isPrefixOf_take, hlen]
      exact fun hh => htake hh
    have hempty : url.data.isEmpty = false := by
      cases hd : url.data with
      | nil => exact absurd (String.ext hd) hne
      | cons c t => rfl
    simp [mkRepository, hA, hB, hempty, hpre]

/-- Witness for C10: "httpsx" accepted; "ftp://host" and " http://x"
rejected with the URL error. -/
theorem repository_urlCheck_witness :
    (∃ repo, mkRepository "n" "o" "httpsx" none none 0 0 none = Except.ok repo) ∧
    (mkRepository "n" "o" "ftp://host" none none 0 0 none =
      Except.error "Invalid repository URL") ∧
    (mkRepository "n" "o" " http://x" none none 0 0 none =
      Except.error "Invalid repository URL") := by
  refine ⟨?_, ?_, ?_⟩
  · exact ((repository_urlCheck "n" "o" "httpsx" none none 0 0 none
      (by decide) (by decide) (by decide)).1).mpr (by decide)
  · exact (repository_urlCheck "n" "o" "ftp://host" none none 0 0 none
      (by decide) (by decide) (by decide)).2 (by decide) (by decide)
  · exact (repository_urlCheck "n" "o" " http://x" none none 0 0 none
      (by decide) (by decide) (by decide)).2 (by decide) (by decide)

end Washhouse
